import Mathlib

set_option maxRecDepth 16384

/-!
Shallow embedding of `scripts/generate_discoverability_assets.py`.

Text is modelled as `List Char` (ASCII); Python string operations
(`lower`, `strip`, `in`, `re.sub`, `re.findall`, `sorted`, …) are given
executable Lean counterparts, and each Python function of the script is
translated one-to-one.  Scanners that replace regex matches are written
with an explicit fuel argument equal to the input length so that they are
structurally recursive and evaluate by `decide`; the fuel is always
sufficient because every step consumes at least one character.
-/

namespace GenAssets

/-- Characters of a string literal. -/
def str (s : String) : List Char := s.data

/-- Python `\s` for the ASCII range: space, tab, newline, carriage return,
form feed, vertical tab. -/
def isPySpace (c : Char) : Bool :=
  c == ' ' || c == '\t' || c == '\n' || c == '\r' || c == Char.ofNat 12 || c == Char.ofNat 11

/-- Python `str.lower` on ASCII text. -/
def lowerL (l : List Char) : List Char := l.map Char.toLower

/-- Python `str.strip()`: drop whitespace from both ends. -/
def stripWS (l : List Char) : List Char :=
  ((l.dropWhile isPySpace).reverse.dropWhile isPySpace).reverse

/-- Python `str.rstrip()`: drop trailing whitespace. -/
def rstripWS (l : List Char) : List Char :=
  (l.reverse.dropWhile isPySpace).reverse

/-- Python `str.rstrip(":")`: drop trailing colon characters. -/
def rstripColons (l : List Char) : List Char :=
  (l.reverse.dropWhile (fun c => c == ':')).reverse

/-- Python substring containment `needle in haystack`. -/
def containsSub (n : List Char) : List Char → Bool
  | [] => n.isEmpty
  | c :: rest => n.isPrefixOf (c :: rest) || containsSub n rest

/-- Maximal runs of characters satisfying `p` (used for `re.findall` of a
character class and for whitespace splitting), with fuel. -/
def runsOfF (p : Char → Bool) : Nat → List Char → List (List Char)
  | 0, _ => []
  | _ + 1, [] => []
  | fuel + 1, c :: rest =>
    if p c then (c :: rest.takeWhile p) :: runsOfF p fuel (rest.dropWhile p)
    else runsOfF p fuel rest

def runsOf (p : Char → Bool) (l : List Char) : List (List Char) := runsOfF p l.length l

/-- Python `re.sub(r"\s+", " ", text).strip()`: the whitespace-separated
words joined by single spaces. -/
def normalizeWS (l : List Char) : List Char :=
  List.intercalate [' '] (runsOf (fun c => !isPySpace c) l)

/-- Split at the first occurrence of `d`: `some (before, after)` when `d`
occurs, `none` otherwise.  This is how a regex `[^d]*d` consumes input. -/
def scanUpto (d : Char) (l : List Char) : Option (List Char × List Char) :=
  match l.dropWhile (fun c => !(c == d)) with
  | [] => none
  | _ :: after => some (l.takeWhile (fun c => !(c == d)), after)

/-- One pass of `re.sub(r"<[^>]+>", " ", ·)` (HTML tags), with fuel. -/
def subTagsF : Nat → List Char → List Char
  | 0, l => l
  | _ + 1, [] => []
  | fuel + 1, c :: rest =>
    if c == '<' then
      match scanUpto '>' rest with
      | some (inside, after) =>
        if inside.isEmpty then c :: subTagsF fuel rest else ' ' :: subTagsF fuel after
      | none => c :: subTagsF fuel rest
    else c :: subTagsF fuel rest

def subTags (l : List Char) : List Char := subTagsF l.length l

/-- Match `\[\!\[[^\]]*\]\([^)]*\)\]\([^)]*\)` (badge link) at the head,
returning the remainder after the match. -/
def matchBadge : List Char → Option (List Char)
  | '[' :: '!' :: '[' :: rest =>
    match scanUpto ']' rest with
    | some (_, r1) =>
      match r1 with
      | '(' :: r2 =>
        match scanUpto ')' r2 with
        | some (_, r3) =>
          match r3 with
          | ']' :: '(' :: r4 =>
            match scanUpto ')' r4 with
            | some (_, r5) => some r5
            | none => none
          | _ => none
        | none => none
      | _ => none
    | none => none
  | _ => none

/-- `re.sub` of the badge pattern by a space, with fuel. -/
def subBadgesF : Nat → List Char → List Char
  | 0, l => l
  | _ + 1, [] => []
  | fuel + 1, c :: rest =>
    match matchBadge (c :: rest) with
    | some after => ' ' :: subBadgesF fuel after
    | none => c :: subBadgesF fuel rest

def subBadges (l : List Char) : List Char := subBadgesF l.length l

/-- Match `!\[[^\]]*\]\([^)]*\)` (inline image) at the head. -/
def matchImage : List Char → Option (List Char)
  | '!' :: '[' :: rest =>
    match scanUpto ']' rest with
    | some (_, r1) =>
      match r1 with
      | '(' :: r2 =>
        match scanUpto ')' r2 with
        | some (_, r3) => some r3
        | none => none
      | _ => none
    | none => none
  | _ => none

def subImagesF : Nat → List Char → List Char
  | 0, l => l
  | _ + 1, [] => []
  | fuel + 1, c :: rest =>
    match matchImage (c :: rest) with
    | some after => ' ' :: subImagesF fuel after
    | none => c :: subImagesF fuel rest

def subImages (l : List Char) : List Char := subImagesF l.length l

/-- Match `\[([^\]]+)\]\([^)]*\)` (markdown link) at the head, returning
the label group and the remainder. -/
def matchLink : List Char → Option (List Char × List Char)
  | '[' :: rest =>
    match scanUpto ']' rest with
    | some (label, r1) =>
      if label.isEmpty then none
      else
        match r1 with
        | '(' :: r2 =>
          match scanUpto ')' r2 with
          | some (_, r3) => some (label, r3)
          | none => none
        | _ => none
    | none => none
  | _ => none

/-- `re.sub` of the link pattern by its label, with fuel. -/
def subLinksF : Nat → List Char → List Char
  | 0, l => l
  | _ + 1, [] => []
  | fuel + 1, c :: rest =>
    match matchLink (c :: rest) with
    | some (label, after) => label ++ subLinksF fuel after
    | none => c :: subLinksF fuel rest

def subLinks (l : List Char) : List Char := subLinksF l.length l

/-- Python `str.splitlines` for `\n`-separated text. -/
def splitLinesF : Nat → List Char → List (List Char)
  | 0, _ => []
  | _ + 1, [] => []
  | fuel + 1, c :: cs =>
    let first := (c :: cs).takeWhile (fun x => !(x == '\n'))
    match (c :: cs).dropWhile (fun x => !(x == '\n')) with
    | [] => [first]
    | _ :: rs => first :: splitLinesF fuel rs

def splitLines (l : List Char) : List (List Char) := splitLinesF l.length l

/-- First-seen-order deduplication with an explicit seen accumulator. -/
def dedupFirstAux [DecidableEq α] (seen : List α) : List α → List α
  | [] => []
  | x :: xs =>
    if x ∈ seen then dedupFirstAux seen xs else x :: dedupFirstAux (x :: seen) xs

def dedupFirst [DecidableEq α] (l : List α) : List α := dedupFirstAux [] l

/-! ### Configuration tables of the script -/

def COMMON_STOPWORDS : List (List Char) :=
  [str "a", str "an", str "and", str "the", str "of", str "for", str "to", str "in",
   str "on", str "with", str "by", str "from", str "how", str "your", str "you",
   str "guide", str "tutorial", str "using", str "use", str "learn", str "build",
   str "deep", str "dive", str "covering", str "production", str "platform",
   str "system", str "systems", str "project", str "practical", str "across",
   str "into", str "through", str "about", str "this", str "that", str "their",
   str "its", str "our", str "these", str "those", str "including"]

/-- The noise phrase `what's new`, built without a literal apostrophe. -/
def whatsNewPattern : List Char := str "what" ++ [Char.ofNat 39] ++ str "s new"

def SUMMARY_NOISE_PATTERNS : List (List Char) :=
  [str "important notice", str "project:", str "latest release",
   whatsNewPattern, str "deprecated", str "sunset"]

def CLUSTER_RULES : List (List Char × List (List Char)) :=
  [(str "ai-coding-agents",
    [str "codex", str "cline", str "roo", str "openhands", str "sweep",
     str "continue", str "aider", str "agent", str "coding", str "claude code",
     str "gemini cli"]),
   (str "mcp-ecosystem",
    [str "mcp", str "model context protocol", str "fastmcp", str "inspector",
     str "registry", str "server", str "tool"]),
   (str "rag-and-retrieval",
    [str "rag", str "retrieval", str "vector", str "embedding", str "llamaindex",
     str "haystack", str "chroma", str "lancedb", str "mem0"]),
   (str "llm-infra-serving",
    [str "ollama", str "vllm", str "llama.cpp", str "llama-cpp", str "serving",
     str "inference", str "litellm", str "localai"]),
   (str "ai-app-frameworks",
    [str "next.js", str "react", str "copilotkit", str "vercel ai", str "flowise",
     str "dify", str "chat", str "ui"]),
   (str "taskade-ecosystem",
    [str "taskade", str "genesis", str "workspace dna", str "living dna",
     str "taskade mcp", str "taskade ai", str "taskade automations"]),
   (str "data-and-storage",
    [str "database", str "postgres", str "clickhouse", str "supabase",
     str "meilisearch", str "knowledge", str "storage"]),
   (str "systems-and-internals",
    [str "internals", str "fiber", str "operators", str "runtime",
     str "architecture", str "protocol", str "planner"])]

/-- The inline hosting-artifact token set of `extract_keywords`. -/
def HOSTING_TOKENS : List (List Char) :=
  [str "github", str "com", str "johnxie", str "main", str "tree", str "blob",
   str "docs", str "repo"]

/-! ### Summary extraction (`first_quote`, `first_paragraph`,
`clean_summary_text`, `is_noise_summary`, `best_summary`) -/

def first_quote (md : List Char) : List Char :=
  match (splitLines md).find? (fun l => (str "> ").isPrefixOf l) with
  | some l => stripWS (l.drop 2)
  | none => []

/-- The loop body of `first_paragraph`, over the lines of the document.
`fence` is the `in_fence` flag, `acc` the collected paragraph lines;
Python's `break` is modelled by returning `acc`. -/
def firstParaLoop : List (List Char) → Bool → List (List Char) → List (List Char)
  | [], _, acc => acc
  | raw :: ls, fence, acc =>
    let line := rstripWS raw
    let stripped := stripWS line
    if (str "```").isPrefixOf stripped then firstParaLoop ls (!fence) acc
    else if fence then firstParaLoop ls fence acc
    else if stripped.isEmpty then
      (if acc.isEmpty then firstParaLoop ls fence acc else acc)
    else if (str "#").isPrefixOf stripped || (str ">").isPrefixOf stripped ||
            (str "-").isPrefixOf stripped || (str "|").isPrefixOf stripped ||
            (str "```").isPrefixOf stripped then
      (if acc.isEmpty then firstParaLoop ls fence acc else acc)
    else if (str "!").isPrefixOf stripped then firstParaLoop ls fence acc
    else if containsSub (str "<img") (lowerL stripped) || (str "<").isPrefixOf stripped then
      firstParaLoop ls fence acc
    else firstParaLoop ls fence (acc ++ [stripped])

def first_paragraph (md : List Char) : List Char :=
  normalizeWS (List.intercalate [' '] (firstParaLoop (splitLines md) false []))

/-- The part of `clean_summary_text` before the `Project:` prefix handling:
strip, tag/badge/image/link regex substitutions, backtick and asterisk
removal, whitespace normalization. -/
def cleanPre (t : List Char) : List Char :=
  normalizeWS ((((subLinks (subImages (subBadges (subTags (stripWS t))))).filter
    (fun c => !(c == Char.ofNat 96))).filter (fun c => !(c == '*'))))

/-- Python `cleaned.split(":", 1)[1]` (the text after the first colon). -/
def afterFirstColon (l : List Char) : List Char :=
  match l.dropWhile (fun c => !(c == ':')) with
  | [] => []
  | _ :: rest => rest

def clean_summary_text (t : List Char) : List Char :=
  let cleaned := cleanPre t
  let cleaned :=
    if (str "project:").isPrefixOf (lowerL cleaned) then stripWS (afterFirstColon cleaned)
    else cleaned
  stripWS (rstripColons cleaned)

def is_noise_summary (t : List Char) : Bool :=
  let lowered := lowerL (clean_summary_text t)
  if lowered.isEmpty then true
  else if (str "http").isPrefixOf lowered then true
  else if containsSub (str "img src=") lowered then true
  else if (str "[!").isPrefixOf lowered then true
  else SUMMARY_NOISE_PATTERNS.any (fun p => containsSub p lowered)

/-- The quote candidate as computed inside `best_summary`. -/
def quoteCandidate (md : List Char) : List Char :=
  clean_summary_text (normalizeWS (first_quote md))

/-- The paragraph candidate as computed inside `best_summary`. -/
def paraCandidate (md : List Char) : List Char :=
  clean_summary_text (first_paragraph md)

def best_summary (md : List Char) : List Char :=
  let quote := quoteCandidate md
  if !quote.isEmpty && !is_noise_summary quote then quote
  else
    let paragraph := paraCandidate md
    if !paragraph.isEmpty && !is_noise_summary paragraph then paragraph
    else if !quote.isEmpty then quote
    else paragraph

/-- The summary field of a record in `build_records`: `best_summary`, with
the generated placeholder when it is empty. -/
def recordSummary (body title : List Char) : List Char :=
  let summary := best_summary body
  if summary.isEmpty then str "Deep technical walkthrough of " ++ title ++ str "."
  else summary

/-! ### `extract_keywords` -/

def isWordChar (c : Char) : Bool := ('a' ≤ c && c ≤ 'z') || ('0' ≤ c && c ≤ '9')

def isDigitChar (c : Char) : Bool := '0' ≤ c && c ≤ '9'

/-- The per-token admission test of `extract_keywords` (everything except
the first-seen deduplication). -/
def keywordOk (t : List Char) : Bool :=
  !(t.length < 3) && !(t.all isDigitChar) && !(COMMON_STOPWORDS.contains t) &&
  !((str "http").isPrefixOf t || (str "www").isPrefixOf t) && !(HOSTING_TOKENS.contains t)

/-- One iteration of the keyword loop: the admission tests, then the
`seen` check, then append to `keywords` and `seen`. -/
def kwStep (acc : List (List Char) × List (List Char)) (t : List Char) :
    List (List Char) × List (List Char) :=
  if keywordOk t then
    (if t ∈ acc.2 then acc else (acc.1 ++ [t], acc.2 ++ [t]))
  else acc

def extract_keywords (slug title summary : List Char) : List (List Char) :=
  let blob := lowerL (slug ++ [' '] ++ title ++ [' '] ++ summary)
  let tokens := runsOf isWordChar blob
  (tokens.foldl kwStep ([], [])).1.take 18

/-! ### `classify_cluster` -/

/-- The combined lowercased text `classify_cluster` scores against. -/
def clusterText (slug title summary : List Char) (keywords : List (List Char)) : List Char :=
  lowerL slug ++ [' '] ++ lowerL title ++ [' '] ++ lowerL summary ++ [' '] ++
    List.intercalate [' '] keywords

/-- `sum(1 for term in terms if term in text)`. -/
def ruleScore (text : List Char) (cr : List Char × List (List Char)) : Nat :=
  cr.2.countP (fun term => containsSub term text)

/-- One iteration of the classifier loop: `if score > best_score: update`. -/
def classifyStep (text : List Char) (best : List Char × Nat)
    (cr : List Char × List (List Char)) : List Char × Nat :=
  if best.2 < ruleScore text cr then (cr.1, ruleScore text cr) else best

def classify_cluster (slug title summary : List Char) (keywords : List (List Char)) :
    List Char :=
  let text := clusterText slug title summary keywords
  if containsSub (str "taskade") text || containsSub (str "genesis") text then
    str "taskade-ecosystem"
  else
    (CLUSTER_RULES.foldl (classifyStep text) (str "general-software", 0)).1

/-! ### `infer_intent_signals` -/

def anyTok (toks : List (List Char)) (text : List Char) : Bool :=
  toks.any (fun t => containsSub t text)

/-- The list accumulated by the rule table of `infer_intent_signals`,
before the `general-learning` default and the cap. -/
def firedIntents (title summary cluster : List Char) : List (List Char) :=
  let text := lowerL title ++ [' '] ++ lowerL summary
  (if anyTok [str "getting started", str "first", str "intro", str "beginner"] text then
    [str "beginner-onboarding"] else []) ++
  (if anyTok [str "production", str "deploy", str "operations", str "scaling",
      str "governance"] text then [str "production-operations"] else []) ++
  (if anyTok [str "architecture", str "internals", str "deep dive", str "design"] text then
    [str "architecture-deep-dive"] else []) ++
  (if anyTok [str "compare", str "selection", str "catalog", str "awesome"] text then
    [str "tool-selection"] else []) ++
  (if cluster == str "mcp-ecosystem" then [str "mcp-integration"] else []) ++
  (if cluster == str "ai-coding-agents" then [str "agentic-coding"] else []) ++
  (if cluster == str "rag-and-retrieval" then [str "rag-implementation"] else [])

def infer_intent_signals (title summary cluster : List Char) : List (List Char) :=
  let intents := firedIntents title summary cluster
  let intents := if intents.isEmpty then [str "general-learning"] else intents
  intents.take 5

/-! ### Query-hub selection -/

/-- The fields of a tutorial record used by hub selection. -/
structure DocRecord where
  slug : List Char
  title : List Char
  summary : List Char
  cluster : List Char
  intent_signals : List (List Char)
deriving DecidableEq

/-- A query-hub definition (the fields `select_records_for_hub` reads). -/
structure QueryHub where
  cluster : List Char
  queries : List (List Char)
  intents : List (List Char)
  must_have_terms : List (List Char)
  prefer_slugs : List (List Char)
deriving DecidableEq

/-- `f"{record['title']} {record['summary']}".lower()`. -/
def recText (r : DocRecord) : List Char := lowerL (r.title ++ [' '] ++ r.summary)

def score_record_for_hub (r : DocRecord) (query_terms intent_preferences : List (List Char)) :
    Nat :=
  let text := recText r
  let s1 := query_terms.foldl
    (fun s term => if containsSub (lowerL term) text then s + 2 else s) 0
  let s2 := intent_preferences.foldl
    (fun s intent => if r.intent_signals.contains intent then s + 2 else s) s1
  if r.intent_signals.contains (str "production-operations") then s2 + 1 else s2

/-- Python string `<` (strict lexicographic comparison by code point). -/
def lexLt : List Char → List Char → Bool
  | [], [] => false
  | [], _ :: _ => true
  | _ :: _, [] => false
  | a :: as, b :: bs => if a < b then true else if b < a then false else lexLt as bs

/-- Python string `<=`. -/
def lexLe (a b : List Char) : Bool := !lexLt b a

/-- "`a` sorts no later than `b`" for the key
`(-score, title.lower())` used to rank hub candidates.  A stable sort by
this non-strict relation coincides with Python's stable `sorted` with that
key. -/
def hubLeB (hub : QueryHub) (a b : DocRecord) : Bool :=
  (decide (score_record_for_hub b hub.queries hub.intents <
      score_record_for_hub a hub.queries hub.intents)) ||
  ((decide (score_record_for_hub a hub.queries hub.intents =
      score_record_for_hub b hub.queries hub.intents)) &&
    lexLe (lowerL a.title) (lowerL b.title))

/-- `filtered = [r for r in records if r["cluster"] == cluster]`. -/
def clusterPool (records : List DocRecord) (hub : QueryHub) : List DocRecord :=
  records.filter (fun r => r.cluster == hub.cluster)

/-- The `strict` restriction by `must_have_terms`. -/
def strictPool (records : List DocRecord) (hub : QueryHub) : List DocRecord :=
  (clusterPool records hub).filter
    (fun r => hub.must_have_terms.any (fun term => containsSub (lowerL term) (recText r)))

/-- The pool after the `must_have_terms` refinement with its non-empty
fallback. -/
def candidatePool (records : List DocRecord) (hub : QueryHub) : List DocRecord :=
  if hub.must_have_terms.isEmpty then clusterPool records hub
  else if (strictPool records hub).isEmpty then clusterPool records hub
  else strictPool records hub

/-- `ranked = sorted(filtered, key=lambda r: (-score, title.lower()))`:
a stable sort by `hubLeB`. -/
def rankedPool (records : List DocRecord) (hub : QueryHub) : List DocRecord :=
  List.insertionSort (fun a b => hubLeB hub a b = true) (candidatePool records hub)

/-- `by_slug[slug]`: Python dict comprehension keeps the last record with a
given slug. -/
def bySlug (ranked : List DocRecord) (s : List Char) : Option DocRecord :=
  ranked.reverse.find? (fun r => r.slug == s)

/-- One iteration of the `prefer_slugs` loop: `if slug in by_slug and slug
not in seen`. -/
def prefStep (ranked : List DocRecord) (acc : List DocRecord × List (List Char))
    (s : List Char) : List DocRecord × List (List Char) :=
  match bySlug ranked s with
  | some r => if s ∈ acc.2 then acc else (acc.1 ++ [r], acc.2 ++ [s])
  | none => acc

/-- One iteration of the loop appending the remaining ranked rows. -/
def rankStep (acc : List DocRecord × List (List Char)) (r : DocRecord) :
    List DocRecord × List (List Char) :=
  if r.slug ∈ acc.2 then acc else (acc.1 ++ [r], acc.2 ++ [r.slug])

def select_records_for_hub (records : List DocRecord) (hub : QueryHub)
    (limit : Nat := 12) : List DocRecord :=
  let ranked := rankedPool records hub
  let step1 := hub.prefer_slugs.foldl (prefStep ranked) ([], [])
  let step2 := ranked.foldl rankStep step1
  step2.1.take limit

/-! ### Spec-side reformulations (translated from the specification's
wording, for the refinement claims) -/

/-- HubSelection as the spec words it: the `prefer_slugs` present in the
ranked pool first, in configured order, each consumed once; then the
remaining ranked candidates in rank order; truncated to the limit. -/
def selectSpec (records : List DocRecord) (hub : QueryHub) (limit : Nat := 12) :
    List DocRecord :=
  let ranked := rankedPool records hub
  let prefPresent := (dedupFirst hub.prefer_slugs).filter
    (fun s => ranked.any (fun r => r.slug == s))
  let prefRecs := prefPresent.filterMap (fun s => ranked.find? (fun r => r.slug == s))
  let rest := ranked.filter (fun r => !(prefPresent.contains r.slug))
  (prefRecs ++ rest).take limit

/-- The cluster classifier as the spec words it: the override first, then
the strictly-highest-scoring rule with ties to the earliest-declared rule,
then the default label. -/
def classifySpec (slug title summary : List Char) (keywords : List (List Char)) :
    List Char :=
  let text := clusterText slug title summary keywords
  if containsSub (str "taskade") text || containsSub (str "genesis") text then
    str "taskade-ecosystem"
  else
    let m := (CLUSTER_RULES.map (ruleScore text)).foldr max 0
    if m = 0 then str "general-software"
    else
      match CLUSTER_RULES.find? (fun cr => ruleScore text cr == m) with
      | some cr => cr.1
      | none => str "general-software"

/-- The keyword list as the spec words it: the qualifying tokens of the
slug+title+summary stream, deduplicated keeping first occurrences, capped
at 18. -/
def keywordsSpec (slug title summary : List Char) : List (List Char) :=
  let blob := lowerL (slug ++ [' '] ++ title ++ [' '] ++ summary)
  (dedupFirst ((runsOf isWordChar blob).filter keywordOk)).take 18

/-! ### Lemmas about the text utilities -/

/-- `lexLt` is the lexicographic strict order on character lists. -/
theorem lexLt_iff : ∀ {a b : List Char}, lexLt a b = true ↔ List.Lex (· < ·) a b := by
  intro a
  induction a with
  | nil =>
    intro b
    cases b with
    | nil =>
      constructor
      · intro h
        exact absurd h (by simp [lexLt])
      · intro h
        exact absurd h (List.Lex.not_nil_right _ _)
    | cons y ys =>
      constructor
      · intro _
        exact List.Lex.nil
      · intro _
        rfl
  | cons x xs ih =>
    intro b
    cases b with
    | nil =>
      constructor
      · intro h
        exact absurd h (by simp [lexLt])
      · intro h
        exact absurd h (List.Lex.not_nil_right _ _)
    | cons y ys =>
      simp only [lexLt]
      constructor
      · intro h
        by_cases h1 : x < y
        · exact List.Lex.rel h1
        · rw [if_neg h1] at h
          by_cases h2 : y < x
          · rw [if_pos h2] at h
            exact absurd h (by simp)
          · rw [if_neg h2] at h
            have hxy : x = y := le_antisymm (not_lt.mp h2) (not_lt.mp h1)
            subst hxy
            exact List.Lex.cons (ih.mp h)
      · intro h
        cases h with
        | rel h1 => simp [h1]
        | cons h2 =>
          rw [if_neg (lt_irrefl x), if_neg (lt_irrefl x)]
          exact ih.mpr h2

theorem lexLe_trans {a b c : List Char} (h1 : lexLe a b = true) (h2 : lexLe b c = true) :
    lexLe a c = true := by
  haveI := List.Lex.isStrictTotalOrder (α := Char) (· < ·)
  unfold lexLe at h1 h2 ⊢
  rw [Bool.not_eq_true', ← Bool.not_eq_true] at h1 h2 ⊢
  rw [lexLt_iff] at h1 h2 ⊢
  intro hca
  rcases trichotomous_of (List.Lex (· < ·)) b a with hba | hba | hba
  · exact h1 hba
  · subst hba
    exact h2 hca
  · exact h2 (IsTrans.trans c a b hca hba)

theorem lexLe_total (a b : List Char) : lexLe a b = true ∨ lexLe b a = true := by
  haveI := List.Lex.isAsymm (α := Char) (· < ·)
  unfold lexLe
  rw [Bool.not_eq_true', ← Bool.not_eq_true, Bool.not_eq_true',
    ← Bool.not_eq_true, lexLt_iff, lexLt_iff]
  by_cases h : List.Lex (fun a b => a < b) b a
  · right
    exact asymm h
  · left
    exact h

theorem hubLeB_trans (hub : QueryHub) {a b c : DocRecord} (h1 : hubLeB hub a b = true)
    (h2 : hubLeB hub b c = true) : hubLeB hub a c = true := by
  unfold hubLeB at h1 h2 ⊢
  simp only [Bool.or_eq_true, Bool.and_eq_true, decide_eq_true_eq] at h1 h2 ⊢
  rcases h1 with h1 | ⟨h1e, h1t⟩ <;> rcases h2 with h2 | ⟨h2e, h2t⟩
  · exact Or.inl (lt_trans h2 h1)
  · exact Or.inl (h2e ▸ h1)
  · exact Or.inl (h1e ▸ h2)
  · exact Or.inr ⟨h1e.trans h2e, lexLe_trans h1t h2t⟩

theorem hubLeB_total (hub : QueryHub) (a b : DocRecord) :
    hubLeB hub a b = true ∨ hubLeB hub b a = true := by
  unfold hubLeB
  simp only [Bool.or_eq_true, Bool.and_eq_true, decide_eq_true_eq]
  rcases Nat.lt_trichotomy (score_record_for_hub a hub.queries hub.intents)
      (score_record_for_hub b hub.queries hub.intents) with h | h | h
  · exact Or.inr (Or.inl h)
  · rcases lexLe_total (lowerL a.title) (lowerL b.title) with ht | ht
    · exact Or.inl (Or.inr ⟨h, ht⟩)
    · exact Or.inr (Or.inr ⟨h.symm, ht⟩)
  · exact Or.inl (Or.inl h)

/-- The additive loops of `score_record_for_hub` count matches. -/
theorem foldl_add2 {α : Type} (p : α → Bool) (l : List α) (a : Nat) :
    l.foldl (fun s x => if p x then s + 2 else s) a = a + 2 * l.countP p := by
  induction l generalizing a with
  | nil => simp
  | cons x xs ih =>
    rw [List.foldl_cons, ih, List.countP_cons]
    cases h : p x <;> simp [h] <;> omega

/-- The ranking relation the spec states for the hub pool: score
descending, ties broken by case-insensitive title ascending. -/
def rankRel (hub : QueryHub) (a b : DocRecord) : Prop :=
  score_record_for_hub b hub.queries hub.intents <
    score_record_for_hub a hub.queries hub.intents ∨
  (score_record_for_hub a hub.queries hub.intents =
      score_record_for_hub b hub.queries hub.intents ∧
    lexLe (lowerL a.title) (lowerL b.title) = true)

theorem hubLeB_iff_rankRel (hub : QueryHub) (a b : DocRecord) :
    hubLeB hub a b = true ↔ rankRel hub a b := by
  unfold hubLeB rankRel
  simp [Bool.or_eq_true, Bool.and_eq_true, decide_eq_true_eq]

theorem rankedPool_sorted (records : List DocRecord) (hub : QueryHub) :
    List.Pairwise (rankRel hub) (rankedPool records hub) := by
  haveI : IsTrans DocRecord (fun a b => hubLeB hub a b = true) :=
    ⟨fun _ _ _ => hubLeB_trans hub⟩
  haveI : IsTotal DocRecord (fun a b => hubLeB hub a b = true) :=
    ⟨hubLeB_total hub⟩
  have h := List.sorted_insertionSort (fun a b => hubLeB hub a b = true)
    (candidatePool records hub)
  unfold rankedPool
  exact h.imp (fun hab => (hubLeB_iff_rankRel hub _ _).mp hab)

/-- A `foldr max 0` over naturals is zero or attained. -/
theorem foldr_max_attained (l : List Nat) : l.foldr max 0 = 0 ∨ l.foldr max 0 ∈ l := by
  induction l with
  | nil => simp
  | cons x xs ih =>
    simp only [List.foldr_cons]
    rcases Nat.le_total x (xs.foldr max 0) with h | h
    · rw [max_eq_right h]
      rcases ih with h0 | hmem
      · exact Or.inl h0
      · exact Or.inr (List.mem_cons_of_mem _ hmem)
    · rw [max_eq_left h]
      exact Or.inr (List.mem_cons_self _ _)

/-- The classifier loop computes the first strict argmax: it returns the
start pair when no rule beats `s0`, and otherwise the earliest rule
attaining the maximal score. -/
theorem classify_foldl (text : List Char) :
    ∀ (l : List (List Char × List (List Char))) (n0 : List Char) (s0 : Nat),
    l.foldl (classifyStep text) (n0, s0) =
      if (l.map (ruleScore text)).foldr max 0 ≤ s0 then (n0, s0)
      else
        match l.find? (fun cr => ruleScore text cr == (l.map (ruleScore text)).foldr max 0) with
        | some cr => (cr.1, (l.map (ruleScore text)).foldr max 0)
        | none => (n0, s0) := by
  intro l
  induction l with
  | nil =>
    intro n0 s0
    simp
  | cons cr rest ih =>
    intro n0 s0
    rw [List.foldl_cons]
    simp only [List.map_cons, List.foldr_cons]
    rcases Nat.lt_or_ge (ruleScore text cr) ((rest.map (ruleScore text)).foldr max 0)
      with hcase | hcase
    · rw [max_eq_right (le_of_lt hcase)]
      by_cases hstep : s0 < ruleScore text cr
      · have hcs : classifyStep text (n0, s0) cr = (cr.1, ruleScore text cr) := by
          simp [classifyStep, hstep]
        rw [hcs, ih, if_neg (by omega), if_neg (by omega),
          List.find?_cons_of_neg _ (by simp; omega)]
        rcases foldr_max_attained (rest.map (ruleScore text)) with h0 | hmem
        · omega
        · rcases List.mem_map.mp hmem with ⟨cr2, hcr2, hscore⟩
          have hex : ∃ x, x ∈ rest ∧
              (ruleScore text x == (rest.map (ruleScore text)).foldr max 0) = true :=
            ⟨cr2, hcr2, beq_iff_eq.mpr hscore⟩
          rcases Option.isSome_iff_exists.mp (List.find?_isSome.mpr hex) with ⟨cr3, hcr3⟩
          rw [hcr3]
      · have hcs : classifyStep text (n0, s0) cr = (n0, s0) := by
          simp [classifyStep, hstep]
        rw [hcs, ih]
        by_cases hM0 : (rest.map (ruleScore text)).foldr max 0 ≤ s0
        · rw [if_pos hM0, if_pos hM0]
        · rw [if_neg hM0, if_neg hM0, List.find?_cons_of_neg _ (by simp; omega)]
    · rw [max_eq_left hcase]
      by_cases hstep : s0 < ruleScore text cr
      · have hcs : classifyStep text (n0, s0) cr = (cr.1, ruleScore text cr) := by
          simp [classifyStep, hstep]
        rw [hcs, ih, if_pos hcase, if_neg (by omega),
          List.find?_cons_of_pos _ (by simp)]
      · have hcs : classifyStep text (n0, s0) cr = (n0, s0) := by
          simp [classifyStep, hstep]
        rw [hcs, ih, if_pos (by omega), if_pos (by omega)]

/-! ### Claim theorems -/

/-- Claim C2: the cluster classifier applies the taskade/genesis override
first, otherwise assigns the cluster of the first rule attaining the
strictly highest substring-count score (a later rule only wins by strictly
exceeding the current best), and the default label when no rule scores
above zero — i.e. it agrees with the spec-side `classifySpec`. -/
theorem claim_C2_classifier (slug title summary : List Char) (keywords : List (List Char)) :
    classify_cluster slug title summary keywords = classifySpec slug title summary keywords := by
  unfold classify_cluster classifySpec
  by_cases hov : (containsSub (str "taskade") (clusterText slug title summary keywords) ||
      containsSub (str "genesis") (clusterText slug title summary keywords)) = true
  · rw [if_pos hov, if_pos hov]
  · rw [if_neg hov, if_neg hov, classify_foldl]
    by_cases hz : (CLUSTER_RULES.map (ruleScore (clusterText slug title summary keywords))).foldr
        max 0 = 0
    · rw [if_pos (by omega), if_pos hz]
    · rw [if_neg (by omega), if_neg hz]
      cases hfind : CLUSTER_RULES.find? (fun cr =>
          ruleScore (clusterText slug title summary keywords) cr ==
          (CLUSTER_RULES.map (ruleScore (clusterText slug title summary keywords))).foldr
            max 0) with
      | none => rfl
      | some cr => rfl

/-- Claim C5: a candidate's hub score is 2 times matched query substrings plus
2 times preferred intents present plus 1 for `production-operations`, and the
ranked pool is sorted by score descending with ties by case-insensitive
title ascending. -/
theorem claim_C5_score_and_ranking (r : DocRecord) (records : List DocRecord)
    (hub : QueryHub) :
    score_record_for_hub r hub.queries hub.intents =
      2 * hub.queries.countP (fun term => containsSub (lowerL term) (recText r)) +
      2 * hub.intents.countP (fun intent => r.intent_signals.contains intent) +
      (if r.intent_signals.contains (str "production-operations") then 1 else 0) ∧
    List.Pairwise (rankRel hub) (rankedPool records hub) := by
  constructor
  · simp only [score_record_for_hub]
    rw [foldl_add2 (fun term => containsSub (lowerL term) (recText r)),
      foldl_add2 (fun intent => r.intent_signals.contains intent)]
    cases h : r.intent_signals.contains (str "production-operations") <;> simp [h] <;> omega
  · exact rankedPool_sorted records hub

/-! ### Keyword-extraction lemmas -/

theorem dedupFirstAux_congr [DecidableEq α] (l : List α) :
    ∀ (S S' : List α), (∀ x, x ∈ S ↔ x ∈ S') → dedupFirstAux S l = dedupFirstAux S' l := by
  induction l with
  | nil => intro S S' _; rfl
  | cons x xs ih =>
    intro S S' h
    simp only [dedupFirstAux]
    by_cases hx : x ∈ S
    · rw [if_pos hx, if_pos ((h x).mp hx)]
      exact ih S S' h
    · rw [if_neg hx, if_neg (fun hc => hx ((h x).mpr hc))]
      rw [ih (x :: S) (x :: S') (fun y => by simp [h y])]

theorem mem_dedupFirstAux [DecidableEq α] (l : List α) :
    ∀ (S : List α) (x : α), x ∈ dedupFirstAux S l → x ∈ l := by
  induction l with
  | nil => intro S x h; exact absurd h (by simp [dedupFirstAux])
  | cons y ys ih =>
    intro S x h
    simp only [dedupFirstAux] at h
    by_cases hy : y ∈ S
    · rw [if_pos hy] at h
      exact List.mem_cons_of_mem _ (ih S x h)
    · rw [if_neg hy] at h
      rcases List.mem_cons.mp h with rfl | h2
      · exact List.mem_cons_self _ _
      · exact List.mem_cons_of_mem _ (ih (y :: S) x h2)

theorem nodup_dedupFirstAux [DecidableEq α] (l : List α) :
    ∀ S : List α, (dedupFirstAux S l).Nodup ∧ ∀ x ∈ dedupFirstAux S l, x ∉ S := by
  induction l with
  | nil => intro S; simp [dedupFirstAux]
  | cons y ys ih =>
    intro S
    simp only [dedupFirstAux]
    by_cases hy : y ∈ S
    · rw [if_pos hy]
      exact ih S
    · rw [if_neg hy]
      rcases ih (y :: S) with ⟨hnd, hnotin⟩
      constructor
      · rw [List.nodup_cons]
        exact ⟨fun hc => hnotin y hc (List.mem_cons_self _ _), hnd⟩
      · intro x hx
        rcases List.mem_cons.mp hx with rfl | h2
        · exact hy
        · exact fun hc => hnotin x h2 (List.mem_cons_of_mem _ hc)

/-- The keyword loop is filtering followed by first-seen deduplication. -/
theorem kwFoldl : ∀ (ts : List (List Char)) (A : List (List Char)),
    ts.foldl kwStep (A, A) =
      (A ++ dedupFirstAux A (ts.filter keywordOk),
       A ++ dedupFirstAux A (ts.filter keywordOk)) := by
  intro ts
  induction ts with
  | nil => intro A; simp [dedupFirstAux]
  | cons t ts ih =>
    intro A
    rw [List.foldl_cons]
    cases hok : keywordOk t with
    | false =>
      have hstep : kwStep (A, A) t = (A, A) := by simp [kwStep, hok]
      rw [hstep, ih, List.filter_cons_of_neg (by simp [hok])]
    | true =>
      rw [List.filter_cons_of_pos (by simp [hok])]
      by_cases ht : t ∈ A
      · have hstep : kwStep (A, A) t = (A, A) := by simp [kwStep, hok, ht]
        rw [hstep, ih]
        simp only [dedupFirstAux, if_pos ht]
      · have hstep : kwStep (A, A) t = (A ++ [t], A ++ [t]) := by simp [kwStep, hok, ht]
        rw [hstep, ih]
        simp only [dedupFirstAux, if_neg ht]
        rw [dedupFirstAux_congr _ (A ++ [t]) (t :: A) (fun y => by simp; tauto)]
        simp

theorem extract_keywords_eq_spec (slug title summary : List Char) :
    extract_keywords slug title summary = keywordsSpec slug title summary := by
  simp only [extract_keywords, keywordsSpec, dedupFirst]
  rw [kwFoldl]
  simp

theorem runsOfF_token_prop (p : Char → Bool) :
    ∀ (fuel : Nat) (l t : List Char), t ∈ runsOfF p fuel l → t.all p = true ∧ t ≠ [] := by
  intro fuel
  induction fuel with
  | zero => intro l t h; exact absurd h (by simp [runsOfF])
  | succ n ih =>
    intro l t h
    cases l with
    | nil => exact absurd h (by simp [runsOfF])
    | cons c rest =>
      simp only [runsOfF] at h
      by_cases hc : p c = true
      · rw [if_pos hc] at h
        rcases List.mem_cons.mp h with rfl | h2
        · refine ⟨?_, by simp⟩
          simp only [List.all_cons, hc, Bool.true_and]
          exact List.all_takeWhile
        · exact ih _ t h2
      · rw [if_neg hc] at h
        exact ih _ t h

/-- Claim C7: extracted keyword lists equal the spec-side
filter/dedup/cap pipeline (hence keep first-seen order), have length at
most 18, contain no duplicates, and every element is a lowercase
alphanumeric token of length at least 3 that is not pure digits and not a
stopword or hosting-artifact token. -/
theorem claim_C7_keywords (slug title summary : List Char) :
    extract_keywords slug title summary = keywordsSpec slug title summary ∧
    (extract_keywords slug title summary).length ≤ 18 ∧
    (extract_keywords slug title summary).dedup = extract_keywords slug title summary ∧
    (extract_keywords slug title summary).all
      (fun t => decide (3 ≤ t.length) && t.all isWordChar && !(t.all isDigitChar) &&
        !(COMMON_STOPWORDS.contains t) && !(HOSTING_TOKENS.contains t)) = true := by
  have hspec := extract_keywords_eq_spec slug title summary
  have hmem : ∀ t ∈ extract_keywords slug title summary,
      keywordOk t = true ∧ t.all isWordChar = true ∧ t ≠ [] := by
    intro t ht
    rw [hspec] at ht
    simp only [keywordsSpec, dedupFirst] at ht
    have ht2 := mem_dedupFirstAux _ _ _ (List.mem_of_mem_take ht)
    rcases List.mem_filter.mp ht2 with ⟨htok, hok⟩
    rcases runsOfF_token_prop isWordChar _ _ _ htok with ⟨hall, hne⟩
    exact ⟨hok, hall, hne⟩
  refine ⟨hspec, ?_, ?_, ?_⟩
  · rw [hspec]
    simp only [keywordsSpec]
    exact List.length_take_le _ _
  · rw [List.dedup_eq_self, hspec]
    simp only [keywordsSpec, dedupFirst]
    exact List.Nodup.sublist (List.take_sublist _ _) (nodup_dedupFirstAux _ _).1
  · rw [List.all_eq_true]
    intro t ht
    rcases hmem t ht with ⟨hok, hall, hne⟩
    simp only [keywordOk, Bool.and_eq_true] at hok
    obtain ⟨⟨⟨⟨h1, h2⟩, h3⟩, h4⟩, h5⟩ := hok
    simp only [Bool.and_eq_true]
    refine ⟨⟨⟨⟨?_, hall⟩, h2⟩, h3⟩, h5⟩
    simp only [Bool.not_eq_true', decide_eq_false_iff_not] at h1
    simp only [decide_eq_true_eq]
    omega

/-! ### Intent-signal lemmas -/

/-- The canonical order in which the intent rules can fire. -/
def INTENT_ORDER : List (List Char) :=
  [str "beginner-onboarding", str "production-operations", str "architecture-deep-dive",
   str "tool-selection", str "mcp-integration", str "agentic-coding",
   str "rag-implementation"]

theorem firedIntents_sublist (title summary cluster : List Char) :
    (firedIntents title summary cluster).Sublist INTENT_ORDER := by
  have hb : ∀ (c : Bool) (x : List Char), (if c then [x] else []).Sublist [x] := by
    intro c x
    cases c <;> simp
  unfold firedIntents
  exact List.Sublist.append (List.Sublist.append (List.Sublist.append
    (List.Sublist.append (List.Sublist.append (List.Sublist.append
      (hb _ _) (hb _ _)) (hb _ _)) (hb _ _)) (hb _ _)) (hb _ _)) (hb _ _)

/-- Claim C8: the inferred intent list has between 1 and 5 labels, its
labels appear in fixed rule-evaluation order (text rules then cluster
rules, each contributing at most one label), and `general-learning` is
present exactly when no rule fired. -/
theorem claim_C8_intent_signals (title summary cluster : List Char) :
    1 ≤ (infer_intent_signals title summary cluster).length ∧
    (infer_intent_signals title summary cluster).length ≤ 5 ∧
    ((infer_intent_signals title summary cluster).Sublist INTENT_ORDER ∨
      infer_intent_signals title summary cluster = [str "general-learning"]) ∧
    ((infer_intent_signals title summary cluster).contains (str "general-learning") =
      (firedIntents title summary cluster).isEmpty) := by
  simp only [infer_intent_signals]
  by_cases hf : (firedIntents title summary cluster).isEmpty = true
  · rw [if_pos hf, hf]
    refine ⟨by simp, by simp, Or.inr (by simp), by simp⟩
  · rw [if_neg hf]
    rw [Bool.not_eq_true] at hf
    have hne : firedIntents title summary cluster ≠ [] := by
      intro hc
      rw [hc] at hf
      simp at hf
    have hsub : ((firedIntents title summary cluster).take 5).Sublist INTENT_ORDER :=
      (List.take_sublist _ _).trans (firedIntents_sublist title summary cluster)
    refine ⟨?_, List.length_take_le _ _, Or.inl hsub, ?_⟩
    · rw [List.length_take]
      have := List.length_pos.mpr hne
      omega
    · rw [hf]
      have hnotmem : str "general-learning" ∉ (firedIntents title summary cluster).take 5 := by
        intro hmem
        have h2 := hsub.subset hmem
        revert h2
        decide
      simp [hnotmem]

/-! ### Summary-filter claims -/

/-- Claim C4: the filter returns the quote only when non-empty and
non-noisy, falls back to a non-empty non-noisy paragraph, returns the
non-empty quote when both are noisy, and yields an empty result exactly
when both candidates clean to empty text. -/
theorem claim_C4_summary_filter (md : List Char) :
    best_summary md =
      (if !(quoteCandidate md).isEmpty && !is_noise_summary (quoteCandidate md) then
        quoteCandidate md
      else if !(paraCandidate md).isEmpty && !is_noise_summary (paraCandidate md) then
        paraCandidate md
      else if !(quoteCandidate md).isEmpty then quoteCandidate md
      else paraCandidate md) ∧
    (best_summary md).isEmpty =
      ((quoteCandidate md).isEmpty && (paraCandidate md).isEmpty) := by
  constructor
  · rfl
  · simp only [best_summary]
    cases hq : (quoteCandidate md).isEmpty <;>
      cases hnq : is_noise_summary (quoteCandidate md) <;>
      cases hp : (paraCandidate md).isEmpty <;>
      cases hnp : is_noise_summary (paraCandidate md) <;>
      simp [hq, hnq, hp, hnp]

/-- An entry whose quote candidate is a non-empty noisy line and whose
paragraph candidate is noisy: the claim C3 counterexample input. -/
def mdBothNoisy : List Char := str "> Latest release v2\n\nDeprecated stuff here"

/-- Claim C3 counterexample: both summary candidates of `mdBothNoisy` are
classified as noise, yet the final summary is the (noisy, non-empty)
quote, not the generated placeholder. -/
theorem claim_C3_counterexample :
    is_noise_summary (quoteCandidate mdBothNoisy) = true ∧
    is_noise_summary (paraCandidate mdBothNoisy) = true ∧
    recordSummary mdBothNoisy (str "Some Title") = str "Latest release v2" ∧
    (recordSummary mdBothNoisy (str "Some Title") ==
      str "Deep technical walkthrough of " ++ str "Some Title" ++ str ".") = false := by
  refine ⟨by decide, by decide, by decide, by decide⟩

/-- Claim C3 (amended): when both summary candidates clean to empty text,
the final summary is the generated placeholder containing the title. -/
theorem claim_C3_amended (md title : List Char) (hq : quoteCandidate md = [])
    (hp : paraCandidate md = []) :
    recordSummary md title = str "Deep technical walkthrough of " ++ title ++ str "." := by
  simp [recordSummary, best_summary, hq, hp]

theorem claim_C3_witness :
    quoteCandidate (str "# Hi") = [] ∧ paraCandidate (str "# Hi") = [] ∧
    recordSummary (str "# Hi") (str "T") =
      str "Deep technical walkthrough of " ++ str "T" ++ str "." :=
  ⟨by decide, by decide, claim_C3_amended (str "# Hi") (str "T") (by decide) (by decide)⟩

/-! ### Lemmas for the `Project:` prefix claim -/

theorem containsSub_infix_iff (n : List Char) :
    ∀ (h : List Char), containsSub n h = true ↔ n.IsInfix h := by
  intro h
  induction h with
  | nil =>
    simp [containsSub, List.isEmpty_iff]
  | cons c rest ih =>
    simp only [containsSub, Bool.or_eq_true, List.isPrefixOf_iff_prefix, ih]
    exact (List.infix_cons_iff).symm

theorem reverse_dropWhile_pref (p : Char → Bool) (l : List Char) :
    ((l.reverse.dropWhile p).reverse).IsPrefix l := by
  have h := List.reverse_prefix.mpr (List.dropWhile_suffix (l := l.reverse) p)
  simpa using h

theorem dropWhile_idem (p : Char → Bool) (l : List Char) :
    (l.dropWhile p).dropWhile p = l.dropWhile p := by
  induction l with
  | nil => rfl
  | cons x xs ih =>
    cases hp : p x with
    | true => simp [List.dropWhile_cons, hp, ih]
    | false => simp [List.dropWhile_cons, hp]

theorem dropWhile_eq_self_of_prefix (p : Char → Bool) {y a : List Char}
    (h : y.IsPrefix a) (ha : a.dropWhile p = a) : y.dropWhile p = y := by
  cases y with
  | nil => rfl
  | cons c ys =>
    rcases h with ⟨s, hs⟩
    have hc : p c = false := by
      by_contra hcon
      rw [Bool.not_eq_false] at hcon
      rw [← hs, List.cons_append, List.dropWhile_cons_of_pos hcon] at ha
      have hle := (List.dropWhile_suffix (l := ys ++ s) p).sublist.length_le
      rw [congrArg List.length ha] at hle
      simp at hle
    simp [List.dropWhile_cons, hc]

theorem rstripColons_pref (l : List Char) : (rstripColons l).IsPrefix l := by
  unfold rstripColons
  exact reverse_dropWhile_pref _ l

theorem stripWS_no_leading (l : List Char) :
    (stripWS l).dropWhile isPySpace = stripWS l := by
  unfold stripWS
  exact dropWhile_eq_self_of_prefix isPySpace
    (reverse_dropWhile_pref isPySpace (l.dropWhile isPySpace)) (dropWhile_idem isPySpace l)

theorem stripWS_prefix_of_no_leading {l : List Char} (h : l.dropWhile isPySpace = l) :
    (stripWS l).IsPrefix l := by
  unfold stripWS
  rw [h]
  exact reverse_dropWhile_pref isPySpace l

/-- The text after the stripped `Project:` prefix, as computed by
`clean_summary_text` (`cleaned.split(":", 1)[1].strip()`). -/
def projRemainder (t : List Char) : List Char := stripWS (afterFirstColon (cleanPre t))

theorem clean_prefix_remainder (t : List Char)
    (hpre : (str "project:").isPrefixOf (lowerL (cleanPre t)) = true) :
    clean_summary_text t = stripWS (rstripColons (projRemainder t)) ∧
    (clean_summary_text t).IsPrefix (projRemainder t) := by
  have heq : clean_summary_text t = stripWS (rstripColons (projRemainder t)) := by
    simp only [clean_summary_text, projRemainder]
    rw [if_pos hpre]
  refine ⟨heq, ?_⟩
  have h1 : (rstripColons (projRemainder t)).IsPrefix (projRemainder t) :=
    rstripColons_pref _
  have h2 : (projRemainder t).dropWhile isPySpace = projRemainder t := by
    unfold projRemainder
    exact stripWS_no_leading _
  have h3 : (rstripColons (projRemainder t)).dropWhile isPySpace =
      rstripColons (projRemainder t) :=
    dropWhile_eq_self_of_prefix _ h1 h2
  rw [heq]
  exact (stripWS_prefix_of_no_leading h3).trans h1

/-- Claim C10 (amended): a candidate whose normalized text starts with the
`project:` prefix, whose stripped remainder carries no noise phrase, URL
start, image marker or badge start, and whose final cleaned text is
non-empty, is not classified as noise: the prefix is stripped before the
noise-phrase test. -/
theorem claim_C10_amended (t : List Char)
    (hpre : (str "project:").isPrefixOf (lowerL (cleanPre t)) = true)
    (hne : (clean_summary_text t).isEmpty = false)
    (hnoise : SUMMARY_NOISE_PATTERNS.any
      (fun p => containsSub p (lowerL (projRemainder t))) = false)
    (hhttp : (str "http").isPrefixOf (lowerL (projRemainder t)) = false)
    (himg : containsSub (str "img src=") (lowerL (projRemainder t)) = false)
    (hbang : (str "[!").isPrefixOf (lowerL (projRemainder t)) = false) :
    is_noise_summary t = false := by
  obtain ⟨heq, hpfx⟩ := clean_prefix_remainder t hpre
  have hplow : (lowerL (clean_summary_text t)).IsPrefix (lowerL (projRemainder t)) :=
    List.IsPrefix.map Char.toLower hpfx
  have hclean_ne : clean_summary_text t ≠ [] := by
    intro hc
    rw [hc] at hne
    simp at hne
  simp only [is_noise_summary]
  rw [if_neg, if_neg, if_neg, if_neg]
  · rw [List.any_eq_false] at hnoise ⊢
    intro pat hp hc
    rw [containsSub_infix_iff] at hc
    have h6 := hc.trans hplow.isInfix
    rw [← containsSub_infix_iff] at h6
    exact hnoise pat hp h6
  · intro h
    rw [List.isPrefixOf_iff_prefix] at h
    have h2 := h.trans hplow
    rw [← List.isPrefixOf_iff_prefix] at h2
    rw [h2] at hbang
    exact absurd hbang (by simp)
  · intro h
    rw [containsSub_infix_iff] at h
    have h2 := h.trans hplow.isInfix
    rw [← containsSub_infix_iff] at h2
    rw [h2] at himg
    exact absurd himg (by simp)
  · intro h
    rw [List.isPrefixOf_iff_prefix] at h
    have h2 := h.trans hplow
    rw [← List.isPrefixOf_iff_prefix] at h2
    rw [h2] at hhttp
    exact absurd hhttp (by simp)
  · intro h
    rw [List.isEmpty_iff] at h
    unfold lowerL at h
    rw [List.map_eq_nil_iff] at h
    exact hclean_ne h

/-- Claim C10 counterexample: the candidate `Project:` satisfies the
claim's stated hypotheses (normalized text starts with the prefix, the
remainder contains no other noise phrase, no URL start, no image marker,
no badge start), yet the noise check returns true, because the remainder
cleans to empty text. -/
theorem claim_C10_counterexample :
    (str "project:").isPrefixOf (lowerL (cleanPre (str "Project:"))) = true ∧
    SUMMARY_NOISE_PATTERNS.any
      (fun p => containsSub p (lowerL (projRemainder (str "Project:")))) = false ∧
    (str "http").isPrefixOf (lowerL (projRemainder (str "Project:"))) = false ∧
    containsSub (str "img src=") (lowerL (projRemainder (str "Project:"))) = false ∧
    (str "[!").isPrefixOf (lowerL (projRemainder (str "Project:"))) = false ∧
    is_noise_summary (str "Project:") = true := by
  refine ⟨by decide, by decide, by decide, by decide, by decide, by decide⟩

def projWitnessInput : List Char := str "Project: Chroma vector database walkthrough"

theorem claim_C10_witness :
    (str "project:").isPrefixOf (lowerL (cleanPre projWitnessInput)) = true ∧
    (clean_summary_text projWitnessInput).isEmpty = false ∧
    is_noise_summary projWitnessInput = false :=
  ⟨by decide, by decide,
    claim_C10_amended projWitnessInput (by decide) (by decide) (by decide) (by decide)
      (by decide) (by decide)⟩

/-! ### Hub-selection emptiness lemmas (claims C6 and C9) -/

theorem prefStep_lens (ranked : List DocRecord) :
    ∀ (ps : List (List Char)) (acc : List DocRecord × List (List Char)),
    acc.1.length = acc.2.length →
    ((ps.foldl (prefStep ranked) acc).1).length =
      ((ps.foldl (prefStep ranked) acc).2).length := by
  intro ps
  induction ps with
  | nil => intro acc h; exact h
  | cons s ss ih =>
    intro acc h
    rw [List.foldl_cons]
    apply ih
    unfold prefStep
    cases hb : bySlug ranked s with
    | none => exact h
    | some r =>
      by_cases hseen : s ∈ acc.2
      · simp [hseen, h]
      · simp [hseen, h]

theorem rankFold_acc_pref : ∀ (l : List DocRecord) (acc : List DocRecord × List (List Char)),
    ∃ ext, (l.foldl rankStep acc).1 = acc.1 ++ ext := by
  intro l
  induction l with
  | nil => intro acc; exact ⟨[], by simp⟩
  | cons r rs ih =>
    intro acc
    rw [List.foldl_cons]
    by_cases h : r.slug ∈ acc.2
    · have hstep : rankStep acc r = acc := by simp [rankStep, h]
      rw [hstep]
      exact ih acc
    · have hstep : rankStep acc r = (acc.1 ++ [r], acc.2 ++ [r.slug]) := by
        simp [rankStep, h]
      rw [hstep]
      rcases ih (acc.1 ++ [r], acc.2 ++ [r.slug]) with ⟨ext, hext⟩
      exact ⟨[r] ++ ext, by rw [hext]; simp⟩

theorem prefFold_nil_ranked :
    ∀ (ps : List (List Char)) (acc : List DocRecord × List (List Char)),
    ps.foldl (prefStep []) acc = acc := by
  intro ps
  induction ps with
  | nil => intro acc; rfl
  | cons s ss ih =>
    intro acc
    rw [List.foldl_cons, show prefStep [] acc s = acc from rfl]
    exact ih acc

theorem select_core_ne_nil (records : List DocRecord) (hub : QueryHub)
    (hne : rankedPool records hub ≠ []) :
    ((rankedPool records hub).foldl rankStep
      (hub.prefer_slugs.foldl (prefStep (rankedPool records hub)) ([], []))).1 ≠ [] := by
  set ranked := rankedPool records hub with hr
  set st1 := hub.prefer_slugs.foldl (prefStep ranked) ([], []) with hst1
  by_cases hA : st1.1 = []
  · have hlen := prefStep_lens ranked hub.prefer_slugs ([], []) rfl
    rw [← hst1] at hlen
    have hS : st1.2 = [] := by
      rw [hA] at hlen
      exact List.length_eq_zero.mp hlen.symm
    cases hranked : ranked with
    | nil => exact absurd hranked hne
    | cons r rs =>
      rw [List.foldl_cons]
      have hstep : rankStep st1 r = (st1.1 ++ [r], st1.2 ++ [r.slug]) := by
        unfold rankStep
        rw [if_neg (by rw [hS]; simp)]
      rw [hstep]
      rcases rankFold_acc_pref rs (st1.1 ++ [r], st1.2 ++ [r.slug]) with ⟨ext, hext⟩
      rw [hext, hA]
      simp
  · rcases rankFold_acc_pref ranked st1 with ⟨ext, hext⟩
    rw [hext]
    intro hc
    exact hA (List.append_eq_nil.mp hc).1

theorem select_eq_nil_iff (records : List DocRecord) (hub : QueryHub) (limit : Nat) :
    select_records_for_hub records hub limit = [] ↔
      (clusterPool records hub = [] ∨ limit = 0) := by
  have hcand : candidatePool records hub = [] ↔ clusterPool records hub = [] := by
    unfold candidatePool
    by_cases hm : hub.must_have_terms.isEmpty = true
    · rw [if_pos hm]
    · rw [if_neg hm]
      by_cases hs : (strictPool records hub).isEmpty = true
      · rw [if_pos hs]
      · rw [if_neg hs]
        constructor
        · intro h
          rw [h] at hs
          simp at hs
        · intro h
          unfold strictPool at hs
          rw [h] at hs
          simp at hs
  have hperm := List.perm_insertionSort (fun a b => hubLeB hub a b = true)
    (candidatePool records hub)
  have hrank : rankedPool records hub = [] ↔ candidatePool records hub = [] := by
    constructor
    · intro h
      unfold rankedPool at h
      rw [h] at hperm
      exact hperm.nil_eq.symm
    · intro h
      unfold rankedPool
      rw [h]
      rfl
  constructor
  · intro h
    by_cases hl : limit = 0
    · exact Or.inr hl
    · refine Or.inl (hcand.mp (hrank.mp ?_))
      by_contra hner
      simp only [select_records_for_hub] at h
      rw [List.take_eq_nil_iff] at h
      rcases h with h | h
      · exact hl h
      · exact select_core_ne_nil records hub hner h
  · intro h
    rcases h with h | h
    · have hr2 : rankedPool records hub = [] := hrank.mpr (hcand.mpr h)
      simp only [select_records_for_hub]
      rw [hr2, prefFold_nil_ranked]
      simp
    · simp only [select_records_for_hub, h]
      simp

/-- Claim C6: the candidate pool is the `must_have_terms` restriction only
when that restriction is non-empty, otherwise the unrestricted cluster
pool; consequently the hub selection is empty exactly when the cluster
pool is empty or the limit is zero, so an over-strict filter never empties
a hub that had candidates. -/
theorem claim_C6_must_have_fallback (records : List DocRecord) (hub : QueryHub)
    (limit : Nat) :
    candidatePool records hub =
      (if (strictPool records hub).isEmpty then clusterPool records hub
       else strictPool records hub) ∧
    (select_records_for_hub records hub limit = [] ↔
      (clusterPool records hub = [] ∨ limit = 0)) := by
  constructor
  · unfold candidatePool
    by_cases hm : hub.must_have_terms.isEmpty = true
    · have hstrict : strictPool records hub = [] := by
        unfold strictPool
        rw [List.isEmpty_iff.mp hm]
        simp
      rw [if_pos hm, hstrict]
      simp
    · rw [if_neg hm]
  · exact select_eq_nil_iff records hub limit

/-- The cluster labels the classifier can produce: the rule names plus the
default label. -/
def VALID_CLUSTERS : List (List Char) :=
  CLUSTER_RULES.map (fun cr => cr.1) ++ [str "general-software"]

/-- Every classified record carries a label of the cluster-rule table or
the default label: a query hub naming any other cluster matches nothing. -/
theorem classify_cluster_mem_valid (slug title summary : List Char)
    (keywords : List (List Char)) :
    VALID_CLUSTERS.contains (classify_cluster slug title summary keywords) = true := by
  unfold classify_cluster
  by_cases hov : (containsSub (str "taskade") (clusterText slug title summary keywords) ||
      containsSub (str "genesis") (clusterText slug title summary keywords)) = true
  · rw [if_pos hov]
    decide
  · rw [if_neg hov, classify_foldl]
    by_cases hz : (CLUSTER_RULES.map
        (ruleScore (clusterText slug title summary keywords))).foldr max 0 ≤ 0
    · rw [if_pos hz]
      decide
    · rw [if_neg hz]
      cases hfind : CLUSTER_RULES.find? (fun cr =>
          ruleScore (clusterText slug title summary keywords) cr ==
          (CLUSTER_RULES.map
            (ruleScore (clusterText slug title summary keywords))).foldr max 0) with
      | none =>
        show VALID_CLUSTERS.contains (str "general-software") = true
        decide
      | some cr =>
        have hmem : cr.1 ∈ VALID_CLUSTERS := by
          unfold VALID_CLUSTERS
          exact List.mem_append_left _ (List.mem_map_of_mem _
            (List.mem_of_find?_eq_some hfind))
        simp [hmem]

/-- Claim C9 counterexample: a hub whose cluster is not in the
cluster-rule table is processed without any error: the selector runs and
produces the empty selection even over a non-empty record set. -/
theorem claim_C9_counterexample :
    VALID_CLUSTERS.contains
      (QueryHub.mk (str "no-such-cluster") [] [] [] []).cluster = false ∧
    select_records_for_hub
      [DocRecord.mk (str "r1") (str "Cline tutorial") (str "agent coding")
        (str "ai-coding-agents") [str "agentic-coding"]]
      (QueryHub.mk (str "no-such-cluster") [] [] [] []) 12 = [] ∧
    [DocRecord.mk (str "r1") (str "Cline tutorial") (str "agent coding")
        (str "ai-coding-agents") [str "agentic-coding"]].length = 1 := by
  refine ⟨by decide, by decide, rfl⟩

/-- Claim C9 (amended): the pipeline performs no configuration-integrity
check; a query-hub definition referencing a cluster name that no record
carries (in particular any name outside the cluster-rule table plus the
default label) yields an empty selection for that hub, with no error
raised. -/
theorem claim_C9_amended (records : List DocRecord) (hub : QueryHub) (limit : Nat)
    (hrec : records.all (fun r => VALID_CLUSTERS.contains r.cluster) = true)
    (hhub : VALID_CLUSTERS.contains hub.cluster = false) :
    select_records_for_hub records hub limit = [] := by
  have hcluster : clusterPool records hub = [] := by
    unfold clusterPool
    rw [List.filter_eq_nil_iff]
    intro r hr hc
    rw [List.all_eq_true] at hrec
    have h1 := hrec r hr
    rw [beq_iff_eq] at hc
    rw [hc] at h1
    rw [h1] at hhub
    exact absurd hhub (by simp)
  exact (select_eq_nil_iff records hub limit).mpr (Or.inl hcluster)

theorem claim_C9_witness :
    [DocRecord.mk (str "r1") (str "Cline tutorial") (str "agent coding")
        (str "ai-coding-agents") [str "agentic-coding"]].all
      (fun r => VALID_CLUSTERS.contains r.cluster) = true ∧
    VALID_CLUSTERS.contains (QueryHub.mk (str "zzz-cluster") [] [] [] []).cluster = false ∧
    select_records_for_hub
      [DocRecord.mk (str "r1") (str "Cline tutorial") (str "agent coding")
        (str "ai-coding-agents") [str "agentic-coding"]]
      (QueryHub.mk (str "zzz-cluster") [] [] [] []) 7 = [] :=
  ⟨by decide, by decide,
    claim_C9_amended _ _ 7 (by decide) (by decide)⟩

/-! ### Override-splice lemmas (claim C1) -/

/-- The slugs the `prefer_slugs` loop keeps, in order: present in the
ranked pool and not seen before. -/
def keptSlugs (ranked : List DocRecord) : List (List Char) → List (List Char) →
    List (List Char)
  | _, [] => []
  | S, s :: ps =>
    match bySlug ranked s with
    | some _ =>
      if s ∈ S then keptSlugs ranked S ps else s :: keptSlugs ranked (s :: S) ps
    | none => keptSlugs ranked S ps

theorem keptSlugs_congr (ranked : List DocRecord) :
    ∀ (ps S S' : List (List Char)), (∀ x, x ∈ S ↔ x ∈ S') →
    keptSlugs ranked S ps = keptSlugs ranked S' ps := by
  intro ps
  induction ps with
  | nil => intro S S' _; rfl
  | cons s ps ih =>
    intro S S' h
    simp only [keptSlugs]
    cases hb : bySlug ranked s with
    | none => exact ih S S' h
    | some r =>
      by_cases hs : s ∈ S
      · rw [if_pos hs, if_pos ((h s).mp hs)]
        exact ih S S' h
      · rw [if_neg hs, if_neg (fun hc => hs ((h s).mpr hc))]
        rw [ih (s :: S) (s :: S') (fun y => by simp [h y])]

theorem prefFold_keptSlugs (ranked : List DocRecord) :
    ∀ (ps : List (List Char)) (A : List DocRecord) (S : List (List Char)),
    ps.foldl (prefStep ranked) (A, S) =
      (A ++ (keptSlugs ranked S ps).filterMap (bySlug ranked),
       S ++ keptSlugs ranked S ps) := by
  intro ps
  induction ps with
  | nil => intro A S; simp [keptSlugs]
  | cons s ps ih =>
    intro A S
    rw [List.foldl_cons]
    cases hb : bySlug ranked s with
    | none =>
      have hstep : prefStep ranked (A, S) s = (A, S) := by simp [prefStep, hb]
      rw [hstep, ih]
      simp only [keptSlugs, hb]
    | some r =>
      by_cases hseen : s ∈ S
      · have hstep : prefStep ranked (A, S) s = (A, S) := by simp [prefStep, hb, hseen]
        rw [hstep, ih]
        simp only [keptSlugs, hb]
        rw [if_pos hseen]
      · have hstep : prefStep ranked (A, S) s = (A ++ [r], S ++ [s]) := by
          simp [prefStep, hb, hseen]
        rw [hstep, ih]
        simp only [keptSlugs, hb]
        rw [if_neg hseen,
          keptSlugs_congr ranked ps (S ++ [s]) (s :: S) (fun y => by simp; tauto)]
        simp [List.filterMap_cons, hb]

theorem bySlug_isSome_iff (ranked : List DocRecord) (s : List Char) :
    (bySlug ranked s).isSome ↔ ranked.any (fun r => r.slug == s) = true := by
  unfold bySlug
  rw [List.find?_isSome, List.any_eq_true]
  constructor
  · rintro ⟨x, hx, hp⟩
    exact ⟨x, List.mem_reverse.mp hx, hp⟩
  · rintro ⟨x, hx, hp⟩
    exact ⟨x, List.mem_reverse.mpr hx, hp⟩

theorem keptSlugs_eq_dedupFilter (ranked : List DocRecord) :
    ∀ (ps S S' : List (List Char)),
    (∀ x, ranked.any (fun r => r.slug == x) = true → (x ∈ S ↔ x ∈ S')) →
    keptSlugs ranked S ps =
      (dedupFirstAux S' ps).filter (fun s => ranked.any (fun r => r.slug == s)) := by
  intro ps
  induction ps with
  | nil => intro S S' _; simp [keptSlugs, dedupFirstAux]
  | cons s ps ih =>
    intro S S' h
    simp only [keptSlugs, dedupFirstAux]
    cases hb : bySlug ranked s with
    | none =>
      have hpres : ranked.any (fun r => r.slug == s) = false := by
        rw [← Bool.not_eq_true]
        intro hc
        have := (bySlug_isSome_iff ranked s).mpr hc
        rw [hb] at this
        exact absurd this (by simp)
      by_cases hsS' : s ∈ S'
      · rw [if_pos hsS']
        exact ih S S' h
      · rw [if_neg hsS', List.filter_cons_of_neg (by simp [hpres])]
        apply ih S (s :: S')
        intro x hx
        rw [h x hx]
        constructor
        · exact fun hxx => List.mem_cons_of_mem _ hxx
        · intro hxx
          rcases List.mem_cons.mp hxx with rfl | hxx
          · rw [hpres] at hx
            exact absurd hx (by simp)
          · exact hxx
    | some r =>
      have hpres : ranked.any (fun r => r.slug == s) = true :=
        (bySlug_isSome_iff ranked s).mp (by rw [hb]; rfl)
      by_cases hseen : s ∈ S
      · rw [if_pos hseen, if_pos ((h s hpres).mp hseen)]
        exact ih S S' h
      · rw [if_neg hseen, if_neg (fun hc => hseen ((h s hpres).mpr hc)),
          List.filter_cons_of_pos (by simp [hpres])]
        rw [ih (s :: S) (s :: S') (fun x hx => by simp [h x hx])]

theorem bySlug_eq_find (ranked : List DocRecord)
    (hrnd : (ranked.map DocRecord.slug).Nodup) (s : List Char) :
    bySlug ranked s = ranked.find? (fun r => r.slug == s) := by
  unfold bySlug
  cases h1 : ranked.find? (fun r => r.slug == s) with
  | none =>
    rw [List.find?_eq_none] at h1 ⊢
    intro r hr
    exact h1 r (List.mem_reverse.mp hr)
  | some r =>
    have hp := List.find?_some h1
    have hmem := List.mem_of_find?_eq_some h1
    cases h2 : ranked.reverse.find? (fun r => r.slug == s) with
    | none =>
      rw [List.find?_eq_none] at h2
      exact absurd hp (h2 r (List.mem_reverse.mpr hmem))
    | some r2 =>
      have hp2 := List.find?_some h2
      have hmem2 := List.mem_reverse.mp (List.mem_of_find?_eq_some h2)
      have heq : r2 = r := by
        apply List.inj_on_of_nodup_map hrnd hmem2 hmem
        rw [beq_iff_eq] at hp hp2
        rw [hp, hp2]
      rw [heq]

theorem rankFold_spec : ∀ (l : List DocRecord) (A : List DocRecord) (S : List (List Char)),
    (l.map DocRecord.slug).Nodup →
    (l.foldl rankStep (A, S)).1 = A ++ l.filter (fun r => decide (r.slug ∉ S)) := by
  intro l
  induction l with
  | nil => intro A S _; simp
  | cons r rs ih =>
    intro A S hnd
    rw [List.map_cons, List.nodup_cons] at hnd
    rcases hnd with ⟨hout, hnd⟩
    rw [List.foldl_cons]
    by_cases hseen : r.slug ∈ S
    · have hstep : rankStep (A, S) r = (A, S) := by simp [rankStep, hseen]
      rw [hstep, ih _ _ hnd, List.filter_cons_of_neg (by simp [hseen])]
    · have hstep : rankStep (A, S) r = (A ++ [r], S ++ [r.slug]) := by
        simp [rankStep, hseen]
      rw [hstep, ih _ _ hnd, List.filter_cons_of_pos (by simp [hseen])]
      have hfc : rs.filter (fun x => decide (x.slug ∉ S ++ [r.slug])) =
          rs.filter (fun x => decide (x.slug ∉ S)) := by
        apply List.filter_congr
        intro x hx
        have hne : x.slug ≠ r.slug := fun hc =>
          hout (hc ▸ List.mem_map_of_mem DocRecord.slug hx)
        rw [decide_eq_decide]
        simp [List.mem_append, hne]
      rw [hfc]
      simp

/-- Record `a` of the spec's hub-override example: scores 10. -/
def exRecA : DocRecord :=
  DocRecord.mk (str "a") (str "q1 q2 q3") [] (str "c") [str "i1", str "i2"]

/-- Record `b` of the spec's hub-override example: scores 1. -/
def exRecB : DocRecord :=
  DocRecord.mk (str "b") (str "zzz") [] (str "c") [str "production-operations"]

/-- The hub of the spec's override example, with `prefer_slugs = [b, a]`. -/
def exHub : QueryHub :=
  QueryHub.mk (str "c") [str "q1", str "q2", str "q3"] [str "i1", str "i2"] []
    [str "b", str "a"]

/-- Claim C1: for slug-unique record sets the hub selection equals the
spec-side splice — preferred slugs present in the ranked pool first, in
configured order, each consumed once, then the remaining ranked candidates
in rank order, truncated to the limit — and in the concrete override
example (a scoring 10, b scoring 1, `prefer_slugs = [b, a]`, default limit
12) the selection starts `[b, a]`: override order beats score order. -/
theorem claim_C1_hub_selection (records : List DocRecord) (hub : QueryHub) (limit : Nat)
    (h : (records.map DocRecord.slug).Nodup) :
    select_records_for_hub records hub limit = selectSpec records hub limit ∧
    score_record_for_hub exRecA exHub.queries exHub.intents = 10 ∧
    score_record_for_hub exRecB exHub.queries exHub.intents = 1 ∧
    (select_records_for_hub [exRecA, exRecB] exHub).map DocRecord.slug =
      [str "b", str "a"] := by
  refine ⟨?_, by decide, by decide, by decide⟩
  have hcand : (candidatePool records hub).Sublist records := by
    have hcl : (clusterPool records hub).Sublist records := List.filter_sublist _
    have hst : (strictPool records hub).Sublist records :=
      (List.filter_sublist _).trans hcl
    unfold candidatePool
    by_cases hm : hub.must_have_terms.isEmpty = true
    · rw [if_pos hm]
      exact hcl
    · rw [if_neg hm]
      by_cases hs : (strictPool records hub).isEmpty = true
      · rw [if_pos hs]
        exact hcl
      · rw [if_neg hs]
        exact hst
  have hperm : List.Perm (rankedPool records hub) (candidatePool records hub) :=
    List.perm_insertionSort _ _
  have hrnd : ((rankedPool records hub).map DocRecord.slug).Nodup :=
    ((hperm.map DocRecord.slug).symm).nodup
      (List.Nodup.sublist (hcand.map DocRecord.slug) h)
  simp only [select_records_for_hub, selectSpec, dedupFirst]
  rw [prefFold_keptSlugs, rankFold_spec _ _ _ hrnd,
    keptSlugs_eq_dedupFilter (rankedPool records hub) hub.prefer_slugs [] []
      (fun x _ => Iff.rfl),
    funext (bySlug_eq_find _ hrnd)]
  have hgen : ∀ (a : List Char) (K : List (List Char)),
      decide (a ∉ ([] : List (List Char)) ++ K) = !(K.contains a) := by
    intro a K
    show decide (a ∉ [] ++ K) = !(List.elem a K)
    rw [List.elem_eq_mem, List.nil_append, decide_not]
  have hfilter :
      (rankedPool records hub).filter (fun r => decide (r.slug ∉
        ([] : List (List Char)) ++ (dedupFirstAux [] hub.prefer_slugs).filter
          (fun s => (rankedPool records hub).any (fun r => r.slug == s)))) =
      (rankedPool records hub).filter (fun r =>
        !(((dedupFirstAux [] hub.prefer_slugs).filter
          (fun s => (rankedPool records hub).any (fun r => r.slug == s))).contains
            r.slug)) := by
    apply List.filter_congr
    intro x _
    exact hgen x.slug _
  rw [hfilter]
  simp

theorem claim_C1_witness :
    (([exRecA, exRecB].map DocRecord.slug).Nodup) ∧
    (select_records_for_hub [exRecA, exRecB] exHub 5 =
        selectSpec [exRecA, exRecB] exHub 5 ∧
      score_record_for_hub exRecA exHub.queries exHub.intents = 10 ∧
      score_record_for_hub exRecB exHub.queries exHub.intents = 1 ∧
      (select_records_for_hub [exRecA, exRecB] exHub).map DocRecord.slug =
        [str "b", str "a"]) :=
  ⟨by decide, claim_C1_hub_selection [exRecA, exRecB] exHub 5 (by decide)⟩

end GenAssets
